import Mathlib

/-!
Verification of the JSON5 manifest synchronization tool
(src/json5-manifest-sync.ts) against its natural-language specification.

The TypeScript source is shallowly embedded below.  Strings are modelled as
Lean `String`s; all character-level processing is done on `List Char` (the
`.data` field), mirroring the JavaScript index-based string operations.
JavaScript's `\s` (whitespace) is modelled by the common ASCII whitespace
characters, which is what the input documents contain.
-/

namespace Json5Sync

/-- ASCII whitespace, modelling JavaScript's whitespace class as used by
`String.prototype.trim` and `\s` on the inputs this tool processes. -/
def isWsC (c : Char) : Bool :=
  c = ' ' || c = '\t' || c = '\n' || c = '\r' || c = '\x0b' || c = '\x0c'

/-- Left trim on character lists. -/
def ltrimL (l : List Char) : List Char := l.dropWhile isWsC

/-- Right trim on character lists. -/
def rtrimL (l : List Char) : List Char := (l.reverse.dropWhile isWsC).reverse

/-- Both-sides trim, modelling JavaScript `String.prototype.trim`. -/
def trimL (l : List Char) : List Char := ltrimL (rtrimL l)

/-- `trim` on `String`, modelling JavaScript `line.trim()`. -/
def trimS (s : String) : String := ⟨trimL s.data⟩

/-- Does `s` start with the string `p`?  Models `String.prototype.startsWith`. -/
def strStartsWith (p s : String) : Bool := List.isPrefixOf p.data s.data

/-- Does `s` end with the string `p`?  Models `String.prototype.endsWith`. -/
def strEndsWith (p s : String) : Bool := List.isSuffixOf p.data s.data

/-- Does `s` contain character `c`?  Models `String.prototype.includes` for a
one-character needle. -/
def strContainsChar (c : Char) (s : String) : Bool := s.data.contains c

/-- Splitting a string at newline characters, modelling
`raw.split("\n")` (the result always has at least one element). -/
def splitNl : List Char → List (List Char)
  | [] => [[]]
  | '\n' :: rest => [] :: splitNl rest
  | c :: rest =>
    match splitNl rest with
    | l :: ls => (c :: l) :: ls
    | [] => [[c]]

/-- `String`-level line splitting. -/
def splitLines (s : String) : List String := (splitNl s.data).map (⟨·⟩)

/-- Dot-joining of a path-segment list, modelling
`[...pathStack, key].join(".")`. -/
def joinDot : List String → String
  | [] => ""
  | [p] => p
  | p :: ps => p ++ "." ++ joinDot ps

/-- Newline-joining of the generated lines, modelling
`generated.join("\n")`. -/
def joinNl : List String → String
  | [] => ""
  | [l] => l
  | l :: ls => l ++ "\n" ++ joinNl ls

/-!
## Annotation extractor (`buildCommentMap`)
-/

/-- The per-path comment record stored by `buildCommentMap`:
`{ preceding: string[]; trailing?: string }`. -/
structure CommentInfo where
  preceding : List String
  trailing : Option String
deriving DecidableEq, Repr

/-- The comment map `Record<string, CommentInfo>`.  JavaScript object
assignment overwrites the entry for an existing key; we model the map as an
association list where insertion prepends and lookup takes the first (i.e.
most recent) entry, which yields the same lookup behaviour. -/
abbrev CMap := List (String × CommentInfo)

/-- Map lookup, modelling `commentsMap[fullPath]` (and, since an entry is
never a falsy value, also `hasOwnProperty`). -/
def cmGet (m : CMap) (k : String) : Option CommentInfo :=
  (List.find? (fun e => e.1 == k) m).map (·.2)

/-- Map insertion, modelling `commentsMap[fullPath] = info`. -/
def cmSet (m : CMap) (k : String) (v : CommentInfo) : CMap := (k, v) :: m

/-- Core of `extractTrailingComment`: scan the remaining characters for the
marker `//`; `q` counts the double quotes already passed.  At a marker with an
even count the rest of the line (trimmed) is returned; at an odd count the
scan resumes after the marker (`searchStart = commentIdx + 2`). -/
def extractAux : Nat → List Char → Option (List Char)
  | q, '/' :: '/' :: rest =>
    if q % 2 = 0 then some (trimL ('/' :: '/' :: rest))
    else extractAux q rest
  | q, '"' :: rest => extractAux (q + 1) rest
  | q, _ :: rest => extractAux q rest
  | _, [] => none

/-- `extractTrailingComment(line)` from the source. -/
def extractTrailingComment (line : String) : Option String :=
  (extractAux 0 line.data).map (⟨·⟩)

/-- The trailing comment actually stored: JavaScript only assigns the field
under `if (trailing)`, so a hypothetical empty string would be dropped
(truthiness).  `extractTrailingComment` in fact never returns an empty
string, but we model the check faithfully. -/
def truthyTrailing (line : String) : Option String :=
  match extractTrailingComment line with
  | some t => if t = "" then none else some t
  | none => none

/-!
### The two line-classification regular expressions

`buildCommentMap` classifies lines with
`/^\s*(["']?)([^"']+)\1\s*:\s*\[\s*$/` (array start) and
`/^\s*(["']?)([^"']+)\1\s*:/` (object key).  The matchers below reproduce
JavaScript's backtracking behaviour for these two patterns:

* `^\s*` is greedy but can backtrack (whitespace is also matched by
  `[^"']+`), modelled by `tryWsDrops` trying the longest whitespace prefix
  first;
* `(["']?)` consumes a quote when one is present (otherwise it is empty, and
  it cannot be empty when the next character is a quote since `[^"']+`
  excludes quotes);
* `([^"']+)` is greedy and backtracks, modelled by `tryK` trying the longest
  candidate first; with a captured quote, backtracking is vacuous because a
  shorter candidate is followed by a non-quote character, so only the maximal
  run can be closed by `\1`.

Whitespace never matches `:`, `[` or end-of-input, so the remaining `\s*`
pieces need no backtracking and are modelled by `dropWhile`.
-/

/-- Is `c` neither `"` nor `'` (the class `[^"']`)? -/
def nonQuote (c : Char) : Bool := !(c = '"' || c = '\'')

/-- Continuation check for the object-key pattern: `\s*:` . -/
def contKey (l : List Char) : Bool :=
  match l.dropWhile isWsC with
  | ':' :: _ => true
  | _ => false

/-- Continuation check for the array-start pattern: `\s*:\s*\[\s*$` . -/
def contArr (l : List Char) : Bool :=
  match l.dropWhile isWsC with
  | ':' :: r =>
    match r.dropWhile isWsC with
    | '[' :: r2 => (r2.dropWhile isWsC).isEmpty
    | _ => false
  | _ => false

/-- Backtracking over the length of the greedy group `([^"']+)` (longest
first): `run` is the maximal `[^"']` run, `tail` the input after it. -/
def tryK (cont : List Char → Bool) (run tail : List Char) : Nat → Option (List Char)
  | 0 => none
  | k + 1 =>
    if cont (run.drop (k + 1) ++ tail) then some (run.take (k + 1))
    else tryK cont run tail k

/-- Matching `(["']?)([^"']+)\1` followed by `cont` at the current position. -/
def bodyMatch (cont : List Char → Bool) (cs : List Char) : Option (List Char) :=
  match cs with
  | [] => none
  | c :: rest =>
    if c = '"' || c = '\'' then
      let run := rest.takeWhile nonQuote
      let after := rest.drop run.length
      match after with
      | d :: r2 => if run ≠ [] ∧ d = c ∧ cont r2 then some run else none
      | [] => none
    else
      let run := cs.takeWhile nonQuote
      let tail := cs.drop run.length
      tryK cont run tail run.length

/-- Backtracking over `^\s*`: the longest whitespace prefix is tried first,
shorter ones on failure. -/
def tryWsDrops (f : List Char → Option (List Char)) : List Char → Option (List Char)
  | [] => f []
  | c :: rest =>
    if isWsC c then
      match tryWsDrops f rest with
      | some r => some r
      | none => f (c :: rest)
    else f (c :: rest)

/-- `line.match(/^\s*(["']?)([^"']+)\1\s*:\s*\[\s*$/)`, returning capture
group 2 (the key) on success. -/
def arrayStartMatch (line : String) : Option String :=
  (tryWsDrops (bodyMatch contArr) line.data).map (⟨·⟩)

/-- `line.match(/^\s*(["']?)([^"']+)\1\s*:/)`, returning capture group 2
(the key) on success. -/
def keyMatch (line : String) : Option String :=
  (tryWsDrops (bodyMatch contKey) line.data).map (⟨·⟩)

/-!
### The extractor state machine
-/

/-- The mutable state of the `buildCommentMap` loop. -/
structure BState where
  cmap : CMap
  pathStack : List String
  arrayIndexStack : List Nat
  bufferedComments : List String
  insideArray : Bool
deriving DecidableEq, Repr

/-- Initial state of the loop. -/
def bInit : BState := ⟨[], [], [], [], false⟩

/-- `arrayIndexStack[arrayIndexStack.length - 1]++`: increment the last
element; on an empty stack JavaScript writes to property `-1`, leaving the
array's elements unchanged, hence the no-op. -/
def bumpLast : List Nat → List Nat
  | [] => []
  | [n] => [n + 1]
  | a :: rest => a :: bumpLast rest

/-- `arrayIndexStack[arrayIndexStack.length - 1]`; on an empty stack the
JavaScript read yields `undefined` and `String(undefined) = "undefined"`. -/
def lastIdxStr (l : List Nat) : String :=
  match l.getLast? with
  | some n => toString n
  | none => "undefined"

/-- Is `trimmed` one of the closing-container lines `}` `},` `]` `],`? -/
def isCloser (trimmed : String) : Bool :=
  trimmed = "\x7d" || trimmed = "\x7d," || trimmed = "]" || trimmed = "],"

/-- One iteration of the `buildCommentMap` loop on a single line, following
the source's control flow: blank line, comment line, array start, array
item, object key / buffer clearing, then the closing-bracket handling. -/
def step (s : BState) (line : String) : BState :=
  let trimmed := trimS line
  if trimmed = "" then s
  else if strStartsWith "//" trimmed then
    { s with bufferedComments := s.bufferedComments ++ [line] }
  else
    match arrayStartMatch line with
    | some key =>
      let fullPath := joinDot (s.pathStack ++ [key])
      let tr := truthyTrailing line
      let m :=
        if s.bufferedComments ≠ [] ∨ tr.isSome then
          cmSet s.cmap fullPath ⟨s.bufferedComments, tr⟩
        else s.cmap
      ⟨m, s.pathStack ++ [key], s.arrayIndexStack ++ [0], [], true⟩
    | none =>
      if s.insideArray ∧ strStartsWith "\"" trimmed ∧ ¬ strContainsChar ':' trimmed then
        let itemPath := joinDot (s.pathStack ++ [lastIdxStr s.arrayIndexStack])
        let tr := truthyTrailing line
        let m :=
          if s.bufferedComments ≠ [] ∨ tr.isSome then
            cmSet s.cmap itemPath ⟨s.bufferedComments, tr⟩
          else s.cmap
        ⟨m, s.pathStack, bumpLast s.arrayIndexStack, [], s.insideArray⟩
      else
        let s1 :=
          match keyMatch line with
          | some key =>
            let fullPath := joinDot (s.pathStack ++ [key])
            let tr := truthyTrailing line
            let m :=
              if s.bufferedComments ≠ [] ∨ tr.isSome then
                cmSet s.cmap fullPath ⟨s.bufferedComments, tr⟩
              else s.cmap
            if strEndsWith "\x7b" trimmed then
              ⟨m, s.pathStack ++ [key], s.arrayIndexStack, [], false⟩
            else
              ⟨m, s.pathStack, s.arrayIndexStack, [], s.insideArray⟩
          | none =>
            if s.bufferedComments ≠ [] ∧ trimmed ≠ "" then
              { s with bufferedComments := [] }
            else s
        if isCloser trimmed then
          let s2 :=
            if strStartsWith "]" trimmed then
              { s1 with insideArray := false,
                        arrayIndexStack := s1.arrayIndexStack.dropLast }
            else s1
          { s2 with pathStack := s2.pathStack.dropLast }
        else s1

/-- `buildCommentMap(lines)` from the source. -/
def buildCommentMap (lines : List String) : CMap :=
  (lines.foldl step bInit).cmap

/-!
## The canonical data tree and the regenerator
-/

mutual
/-- The canonical source tree (`source: Record<string, unknown>` and the
subtrees passed to `writeObject`): objects, arrays, strings, numbers,
booleans and null.  Numbers are modelled as integers (the canonical
documents this tool processes carry integral version-like numbers; the
floating-point rendering of JavaScript is outside the shallow embedding).
Object fields are listed in their JavaScript enumeration order. -/
inductive JVal where
  | jnull : JVal
  | jbool : Bool → JVal
  | jnum : Int → JVal
  | jstr : String → JVal
  | jarr : JArr → JVal
  | jobj : JFields → JVal

/-- An array of canonical values. -/
inductive JArr where
  | anil : JArr
  | acons : JVal → JArr → JArr

/-- The ordered field list of a canonical object. -/
inductive JFields where
  | fnil : JFields
  | fcons : String → JVal → JFields → JFields
end

open JVal JArr JFields

/-- A decimal digit character. -/
def digitChar (d : Nat) : Char := Char.ofNat (48 + d)

/-- Decimal digits of a natural number (fuel-driven so that the definition
is structurally recursive and kernel-reducible). -/
def natDigitsAux : Nat → Nat → List Char
  | 0, _ => []
  | fuel + 1, n =>
    if n < 10 then [digitChar n]
    else natDigitsAux fuel (n / 10) ++ [digitChar (n % 10)]

/-- Decimal representation of a natural number. -/
def natRepr (n : Nat) : String := ⟨natDigitsAux (n + 1) n⟩

/-- Decimal representation of an integer, modelling how
`JSON.stringify` renders the integral numbers in scope. -/
def intRepr : Int → String
  | Int.ofNat m => natRepr m
  | Int.negSucc m => "-" ++ natRepr (m + 1)

/-- Four-digit lowercase hexadecimal, for `\u00XX` escapes. -/
def hex4 (n : Nat) : String :=
  let hd := fun d : Nat => Char.ofNat (if d < 10 then 48 + d else 87 + d)
  ⟨[hd (n / 4096 % 16), hd (n / 256 % 16), hd (n / 16 % 16), hd (n % 16)]⟩

/-- JSON string-body escaping as performed by `JSON.stringify`. -/
def jsonEscapeChar (c : Char) : List Char :=
  if c = '"' then ['\\', '"']
  else if c = '\\' then ['\\', '\\']
  else if c = '\n' then ['\\', 'n']
  else if c = '\r' then ['\\', 'r']
  else if c = '\t' then ['\\', 't']
  else if c = '\x08' then ['\\', 'b']
  else if c = '\x0c' then ['\\', 'f']
  else if c.toNat < 32 then '\\' :: 'u' :: (hex4 c.toNat).data
  else [c]

/-- `JSON.stringify` of a string value. -/
def jsonStrLit (s : String) : String :=
  ⟨'"' :: (s.data.flatMap jsonEscapeChar) ++ ['"']⟩

mutual
/-- Compact `JSON.stringify(val)`, used by `writeObject` for array items
and primitive values. -/
def jsonStringify : JVal → String
  | jnull => "null"
  | jbool true => "true"
  | jbool false => "false"
  | jnum n => intRepr n
  | jstr s => jsonStrLit s
  | jarr xs => "[" ++ jsonStringifyItems xs ++ "]"
  | jobj fs => "\x7b" ++ jsonStringifyFields fs ++ "\x7d"

/-- Comma-joined stringification of array elements. -/
def jsonStringifyItems : JArr → String
  | anil => ""
  | acons v anil => jsonStringify v
  | acons v rest => jsonStringify v ++ "," ++ jsonStringifyItems rest

/-- Comma-joined stringification of object fields. -/
def jsonStringifyFields : JFields → String
  | fnil => ""
  | fcons k v fnil => jsonStrLit k ++ ":" ++ jsonStringify v
  | fcons k v rest => jsonStrLit k ++ ":" ++ jsonStringify v ++ "," ++ jsonStringifyFields rest
end

/-- Does the key match `/^[$A-Z_][0-9A-Z_$]*$/i`? -/
def identLike (l : List Char) : Bool :=
  match l with
  | [] => false
  | c :: rest =>
    (c = '$' || c = '_' || c.isAlpha) &&
      rest.all (fun d => d = '$' || d = '_' || d.isAlpha || d.isDigit)

/-- `quoteKey(key)` from the source. -/
def quoteKey (key : String) : String :=
  if identLike key.data then "\"" ++ key ++ "\"" else jsonStrLit key

/-- `indent(line, level)` from the source:
`" ".repeat(level) + line.trim()`. -/
def indentS (line : String) (level : Nat) : String :=
  ⟨List.replicate level ' ' ++ trimL line.data⟩

/-- Is this canonical value written as a primitive (neither a plain object
nor an array)?  Matches the `typeof`/`Array.isArray` tests in
`writeObject`; `null` counts as primitive there (`val !== null` fails). -/
def isScalar : JVal → Bool
  | jobj _ => false
  | jarr _ => false
  | _ => true

/-- The `comments[fullPath]?.trailing` read. -/
def infoTrailing : Option CommentInfo → Option String
  | some info => info.trailing
  | none => none

/-- The lines emitted above an object member for its key: the recorded
preceding comments when there are any, otherwise (when the option is on and
the path has no record at all) one placeholder `//` line. -/
def keyCommentLines (cm : CMap) (ae : Bool) (fullPath : String) (level : Nat) :
    List String :=
  match cmGet cm fullPath with
  | some info =>
    if info.preceding.length > 0 then info.preceding.map (fun c => indentS c level)
    else []
  | none => if ae then [indentS "//" level] else []

/-- The lines emitted above an array item (the item code tests only
`itemCommentInfo?.preceding`, which is truthy whenever a record exists). -/
def itemCommentLines (cm : CMap) (ae : Bool) (itemPath : String) (level : Nat) :
    List String :=
  match cmGet cm itemPath with
  | some info => info.preceding.map (fun c => indentS c level)
  | none => if ae then [indentS "//" level] else []

/-- Appends a trailing comment to a line when one is recorded:
``withTrailing = trailing ? `${line} ${trailing}` : line``. -/
def withTrailingOf (base : String) (tr : Option String) : String :=
  match tr with
  | some t => base ++ " " ++ t
  | none => base

/-- The loop body over an array's items in `writeObject` (`j` is the index
of the first item of `xs`).  Items are rendered by `JSON.stringify` with a
trailing comma, each preceded by its comment lines. -/
def writeItems (cm : CMap) (ae : Bool) (path : List String) (key : String)
    (level : Nat) : JArr → Nat → List String
  | anil, _ => []
  | acons e rest, j =>
    let itemPath := joinDot (path ++ [key, toString j])
    let itemLine := jsonStringify e ++ ","
    itemCommentLines cm ae itemPath (level + 2) ++
      [indentS (withTrailingOf itemLine (infoTrailing (cmGet cm itemPath))) (level + 2)] ++
      writeItems cm ae path key level rest (j + 1)

/-- The member chunk emitted by one iteration of the key loop in
`writeObject`; `inner` is the recursive rendering of the value when the
value is a nested object (and is ignored otherwise). -/
def entryLinesWith (cm : CMap) (ae : Bool) (key : String) (val : JVal)
    (path : List String) (level : Nat) (inner : List String) : List String :=
  let fullPath := joinDot (path ++ [key])
  let tr := infoTrailing (cmGet cm fullPath)
  keyCommentLines cm ae fullPath level ++
    match val with
    | jobj _ =>
      [indentS (withTrailingOf (quoteKey key ++ ": \x7b") tr) level] ++ inner ++
        [indentS "\x7d," level]
    | jarr xs =>
      [indentS (withTrailingOf (quoteKey key ++ ": [") tr) level] ++
        writeItems cm ae path key level xs 0 ++ [indentS "]," level]
    | v =>
      [indentS (withTrailingOf (quoteKey key ++ ": " ++ jsonStringify v ++ ",") tr) level]

mutual
/-- `writeObject(obj, path, level)` from the source: a non-object (null,
array or scalar) yields no lines; an object yields the concatenation of its
members' chunks. -/
def writeObject (cm : CMap) (ae : Bool) : JVal → List String → Nat → List String
  | jobj fs, path, level => writeFields cm ae fs path level
  | _, _, _ => []

/-- The key loop of `writeObject` over the field list. -/
def writeFields (cm : CMap) (ae : Bool) : JFields → List String → Nat → List String
  | fnil, _, _ => []
  | fcons k v rest, path, level =>
    entryLinesWith cm ae k v path level (writeObject cm ae v (path ++ [k]) (level + 2)) ++
      writeFields cm ae rest path level
end

/-- `syncJson5(raw, source, options)` from the source.  The options object
is modelled by its one field: `none` stands for an absent
`addEmptyCommentIfMissing` (which the source resolves to `true`). -/
def syncJson5 (raw : String) (source : JVal) (opts : Option Bool) : String :=
  let lines := splitLines raw
  let cm := buildCommentMap lines
  let ae := opts.getD true
  let generated := writeObject cm ae source [] 2
  "\x7b\n" ++ joinNl generated ++ "\n\x7d"

/-!
## Apparatus for stating the claims

The definitions below do not embed source code; they formalize the notions
the claims quantify over (paths into the canonical tree, substring
containment, and — for the refinement-style claim about trailing-comment
detection — a transcription of the specification's description of the
scan).
-/

/-- The `typeof obj === "object" && obj !== null && !Array.isArray(obj)`
type guard at the top of `writeObject`. -/
def isPlainObject : JVal → Bool
  | jobj _ => true
  | _ => false

/-- Element of an array by index. -/
def aGet : JArr → Nat → Option JVal
  | anil, _ => none
  | acons e _, 0 => some e
  | acons _ r, n + 1 => aGet r n

/-- First field of an object with the given key. -/
def fAssoc : JFields → String → Option JVal
  | fnil, _ => none
  | fcons k v r, key => if k = key then some v else fAssoc r key

/-- Descent through object members only (the positions the regenerator
recurses into). -/
def objDescend : JVal → List String → Option JVal
  | v, [] => some v
  | jobj fs, k :: ps =>
    (match fAssoc fs k with
     | some v => objDescend v ps
     | none => none)
  | _, _ :: _ => none

/-- Array-element lookup by the decimal string form of the index, for the
spec's Path notion (segments are keys or array indices, serialized in
decimal). -/
def aFindIdx : JArr → Nat → String → Option JVal
  | anil, _, _ => none
  | acons e r, j, seg => if toString j = seg then some e else aFindIdx r (j + 1) seg

/-- The spec's Path lookup into a canonical tree: a sequence of object keys
and (decimal) array indices.  Formalizes "that path still exists in the
canonical tree". -/
def treeLookup : JVal → List String → Option JVal
  | v, [] => some v
  | jobj fs, k :: ps =>
    (match fAssoc fs k with
     | some v => treeLookup v ps
     | none => none)
  | jarr xs, k :: ps =>
    (match aFindIdx xs 0 k with
     | some v => treeLookup v ps
     | none => none)
  | _, _ :: _ => none

/-- Number of fields of an object (an induction measure). -/
def fLen : JFields → Nat
  | fnil => 0
  | fcons _ _ r => fLen r + 1

/-- Number of elements of an array (an induction measure). -/
def aLen : JArr → Nat
  | anil => 0
  | acons _ r => aLen r + 1

/-- Substring test on character lists. -/
def containsSubL (needle : List Char) : List Char → Bool
  | [] => List.isPrefixOf needle []
  | c :: rest => List.isPrefixOf needle (c :: rest) || containsSubL needle rest

/-- Substring test on strings, formalizing "the output contains ...". -/
def strContainsSub (needle s : String) : Bool := containsSubL needle.data s.data

/-- The first line of the chunk `writeObject` emits for a member: the
opening line of a nested object or array, or the full value line of a
primitive (before the optional trailing comment is appended). -/
def memberHead (key : String) : JVal → String
  | jobj _ => quoteKey key ++ ": \x7b"
  | jarr _ => quoteKey key ++ ": ["
  | v => quoteKey key ++ ": " ++ jsonStringify v ++ ","

/-- Everything a member's chunk emits after its first line. -/
def entryTail (cm : CMap) (ae : Bool) (key : String) (val : JVal)
    (path : List String) (level : Nat) (inner : List String) : List String :=
  match val with
  | jobj _ => inner ++ [indentS "\x7d," level]
  | jarr xs => writeItems cm ae path key level xs 0 ++ [indentS "]," level]
  | _ => []

/-- Modelled from the spec/claim wording of the trailing-comment heuristic:
scan the line left to right; at every occurrence of the marker `//`, if the
number of double quotes before it is even, return the text from the marker
to the end of the line, trimmed; otherwise keep scanning.  Unlike the
source's `extractAux`, this transcription examines every occurrence (it
advances one character at a time), which is what the claim's "exactly when
the count is even" quantification means. -/
def trailingScanSpec : Nat → List Char → Option (List Char)
  | q, c :: cs =>
    if c = '/' ∧ cs.head? = some '/' ∧ q % 2 = 0 then some (trimL (c :: cs))
    else trailingScanSpec (if c = '"' then q + 1 else q) cs
  | _, [] => none

/-- Is there any occurrence of the marker `//` preceded by an even number
of double quotes (counting from an initial count `q`)? -/
def evenOccExists : Nat → List Char → Bool
  | q, c :: cs =>
    (decide (c = '/') && (cs.head? == some '/') && decide (q % 2 = 0)) ||
      evenOccExists (if c = '"' then q + 1 else q) cs
  | _, [] => false

/-!
## Concrete inputs used by counterexamples, failing inputs and witnesses
-/

/-- Failing input for idempotence: an array opener carrying a trailing
comment, together with a top-level member whose literal key collides with
the dot-joined path of the array's first element. -/
def c1raw : String :=
  "\x7b\n  \"deps\": [ // c\n  ],\n  // note\n  \"deps.0\": 1,\n\x7d"

/-- Canonical tree for the idempotence failing input. -/
def c1src : JVal := jobj (fcons "deps" (jarr (acons (jstr "x") anil)) fnil)

/-- Annotated document attaching a comment to a path that runs through an
array element (`arr.0.inner`). -/
def c2raw : String :=
  "\x7b\n  \"arr\": [\n    \"0\": \x7b\n      // note\n      \"inner\": 1,\n    \x7d,\n  ],\n\x7d"

/-- Canonical tree containing the path `arr.0.inner` (an object inside an
array). -/
def c2src : JVal :=
  jobj (fcons "arr" (jarr (acons (jobj (fcons "inner" (jnum 1) fnil)) anil)) fnil)

/-- A line that opens an array under a key with a trailing comment after
the bracket. -/
def c4line : String := "\"deps\": [ // c"

/-- Annotated document with a trailing comment on a scalar member. -/
def c8raw : String := "\x7b\n  \"a\": 1, // c\n\x7d"

/-- Canonical tree for the trailing-comma counterexample. -/
def c8src : JVal := jobj (fcons "a" (jnum 1) fnil)

/-- Small annotated document with one preceding comment, for witnesses. -/
def wRaw : String := "\x7b\n  // note\n  \"a\": 1,\n\x7d"

/-- Canonical tree `{ a: 1 }`, for witnesses. -/
def wSrc : JVal := jobj (fcons "a" (jnum 1) fnil)

/-- Annotated document with a comment on an array item, for witnesses. -/
def wArrRaw : String := "\x7b\n  \"xs\": [\n    // item note\n    \"glob\",\n  ],\n\x7d"

/-- Canonical tree `{ xs: ["glob"] }`, for witnesses. -/
def wArrSrc : JVal := jobj (fcons "xs" (jarr (acons (jstr "glob") anil)) fnil)

/-!
# Theorems
-/

/-- A blank line (`if (!trimmed) continue`) leaves the extractor state
untouched. -/
theorem step_blank (s : BState) (line : String) (h : trimS line = "") :
    step s line = s := by
  unfold step
  simp [h]

/-- Folding the extractor over blank lines is the identity. -/
theorem foldl_step_blank (blanks : List String)
    (h : ∀ b ∈ blanks, trimS b = "") :
    ∀ s : BState, blanks.foldl step s = s := by
  induction blanks with
  | nil => intro s; rfl
  | cons b bs ih =>
    intro s
    have hb : trimS b = "" := h b (by simp)
    have hrest : ∀ x ∈ bs, trimS x = "" := fun x hx => h x (by simp [hx])
    simp [List.foldl_cons, step_blank s b hb, ih hrest]

/-- C9 (blank-line transparency): inserting blank lines anywhere between
the lines of the input — in particular between an annotation block and its
target — does not change the extracted comment map: the blank lines are
skipped without clearing the preceding-annotation buffer, so annotations
are recorded exactly as if the surrounding lines were adjacent. -/
theorem c9_blank_lines_transparent (pre blanks post : List String)
    (h : ∀ b ∈ blanks, trimS b = "") :
    buildCommentMap (pre ++ blanks ++ post) = buildCommentMap (pre ++ post) := by
  unfold buildCommentMap
  rw [List.foldl_append, List.foldl_append, List.foldl_append,
    foldl_step_blank blanks h]

/-- Witness for C9 at a concrete input: two blank lines between a comment
and its target key do not change the extracted map. -/
theorem c9_blank_lines_transparent_witness :
    (∀ b ∈ ["", "   "], trimS b = "") ∧
    buildCommentMap (["\x7b", "  // note"] ++ ["", "   "] ++ ["  \"a\": 1,", "\x7d"]) =
      buildCommentMap (["\x7b", "  // note"] ++ ["  \"a\": 1,", "\x7d"]) :=
  ⟨by decide, c9_blank_lines_transparent ["\x7b", "  // note"] ["", "   "]
    ["  \"a\": 1,", "\x7d"] (by decide)⟩

/-- C10 (non-object canonical root): when the source value is not a plain
object (null, an array, or a scalar), `writeObject` emits no lines and
`syncJson5` returns exactly the empty top-level object literal, for every
raw text and configuration. -/
theorem c10_nonObject_root_empty (raw : String) (opts : Option Bool) (v : JVal)
    (h : isPlainObject v = false) :
    syncJson5 raw v opts = "\x7b\n\n\x7d" := by
  cases v with
  | jobj fs => simp [isPlainObject] at h
  | jnull => rfl
  | jbool b => rfl
  | jnum n => rfl
  | jstr s => rfl
  | jarr xs => rfl

/-- Witness for C10 at a concrete input. -/
theorem c10_nonObject_root_empty_witness :
    isPlainObject (jarr anil) = false ∧
    syncJson5 "\x7b\n\x7d" (jarr anil) (some true) = "\x7b\n\n\x7d" :=
  ⟨rfl, c10_nonObject_root_empty "\x7b\n\x7d" (some true) (jarr anil) rfl⟩

/-- C4 counterexample: on the line `"deps": [ // c` — an array opener with
a trailing annotation after the bracket — the extractor does **not** push
the key onto the nesting stack, does not push `0` onto the array-index
stack, and does not enter array context (the anchored regular expression
`\[\s*$` fails); the line is instead handled by the object-member rule,
which records the trailing annotation at the path but tracks no nesting. -/
theorem c4_counterexample :
    (step bInit c4line).pathStack = [] ∧
    (step bInit c4line).arrayIndexStack = [] ∧
    (step bInit c4line).insideArray = false ∧
    cmGet (step bInit c4line).cmap "deps" = some ⟨[], some "// c"⟩ :=
  ⟨rfl, rfl, rfl, rfl⟩

/-- C4 (amended): the array-opening branch applies exactly to the lines
matched by the anchored pattern — nothing but whitespace may follow the
bracket, so a trailing annotation after the bracket prevents the match —
and that are neither blank nor annotation lines (those are consumed
earlier).  For every such line and every extractor state, the step records
an AnnotationRecord at the nesting stack plus key exactly when the
preceding buffer is non-empty or a trailing comment is detected, pushes the
key onto the nesting stack, pushes `0` onto the array-index stack, enters
array context, and clears the preceding buffer. -/
theorem c4_amended (s : BState) (line key : String)
    (hm : arrayStartMatch line = some key)
    (hb : trimS line ≠ "")
    (hc : strStartsWith "//" (trimS line) = false) :
    step s line =
      ⟨if s.bufferedComments ≠ [] ∨ (truthyTrailing line).isSome then
          cmSet s.cmap (joinDot (s.pathStack ++ [key])) ⟨s.bufferedComments, truthyTrailing line⟩
        else s.cmap,
        s.pathStack ++ [key], s.arrayIndexStack ++ [0], [], true⟩ := by
  simp [step, hm, hb, hc]

/-- Witness for C4 (amended) at a concrete state and line. -/
theorem c4_amended_witness :
    arrayStartMatch "\"deps\": [" = some "deps" ∧
    trimS "\"deps\": [" ≠ "" ∧
    strStartsWith "//" (trimS "\"deps\": [") = false ∧
    step ⟨[], [], [], ["// x"], false⟩ "\"deps\": [" =
      ⟨[("deps", ⟨["// x"], none⟩)], ["deps"], [0], [], true⟩ := by
  refine ⟨rfl, by decide, rfl, ?_⟩
  rw [c4_amended ⟨[], [], [], ["// x"], false⟩ "\"deps\": [" "deps" rfl (by decide) rfl]
  rfl

/-- C1 (code bug, failing input): synchronizing `c1raw` against `c1src`
preserves the item annotation `// note` (via the colliding literal key
`"deps.0"`), but a second pass on the output drops it — the extractor does
not recognize `"deps": [ // c` as an array opener, never enters array
context, and discards the buffered comment — so the output of the second
pass differs from the output of the first. -/
theorem c1_second_pass_differs :
    syncJson5 c1raw c1src (some false) =
      "\x7b\n  \"deps\": [ // c\n    // note\n    \"x\",\n  ],\n\x7d" ∧
    syncJson5 (syncJson5 c1raw c1src (some false)) c1src (some false) =
      "\x7b\n  \"deps\": [ // c\n    \"x\",\n  ],\n\x7d" ∧
    syncJson5 (syncJson5 c1raw c1src (some false)) c1src (some false) ≠
      syncJson5 c1raw c1src (some false) :=
  ⟨rfl, rfl, by decide⟩

/-- C2 counterexample: the extractor records `// note` at path
`arr.0.inner`, that path exists in the canonical tree, yet the regenerated
output (under either configuration) does not contain the annotation:
array items are re-serialized atomically, so paths running through an
array element are never consulted. -/
theorem c2_counterexample :
    cmGet (buildCommentMap (splitLines c2raw)) "arr.0.inner" =
      some ⟨["      // note"], none⟩ ∧
    treeLookup c2src ["arr", "0", "inner"] = some (jnum 1) ∧
    strContainsSub "// note" (syncJson5 c2raw c2src (some false)) = false ∧
    strContainsSub "// note" (syncJson5 c2raw c2src (some true)) = false :=
  ⟨rfl, rfl, by decide, by decide⟩

/-- Lookup after insertion: the inserted record shadows the previous
binding of the same path and leaves all other paths unchanged. -/
theorem cmGet_cmSet (m : CMap) (k p : String) (v : CommentInfo) :
    cmGet (cmSet m k v) p = if k = p then some v else cmGet m p := by
  simp only [cmGet, cmSet, List.find?]
  by_cases h : k = p
  · simp [h]
  · have hb : (k == p) = false := by simp [h]
    simp [hb, h]

/-- Each extractor step either leaves the comment map unchanged or inserts
one record built from the current buffer and the detected trailing comment,
and it only inserts when the buffer is non-empty or a trailing comment was
detected. -/
theorem step_cmap_cases (s : BState) (line : String) :
    (step s line).cmap = s.cmap ∨
    ∃ p, (s.bufferedComments ≠ [] ∨ (truthyTrailing line).isSome = true) ∧
      (step s line).cmap = cmSet s.cmap p ⟨s.bufferedComments, truthyTrailing line⟩ := by
  by_cases h1 : trimS line = ""
  · left; simp [step, h1]
  by_cases h2 : strStartsWith "//" (trimS line) = true
  · left; simp [step, h1, h2]
  cases hm : arrayStartMatch line with
  | some key =>
    by_cases hg : s.bufferedComments ≠ [] ∨ (truthyTrailing line).isSome = true
    · right
      exact ⟨joinDot (s.pathStack ++ [key]), hg, by simp [step, h1, h2, hm, hg]⟩
    · left; simp [step, h1, h2, hm, hg]
  | none =>
    by_cases h3 : s.insideArray = true ∧ strStartsWith "\"" (trimS line) = true ∧
        ¬ strContainsChar ':' (trimS line) = true
    · by_cases hg : s.bufferedComments ≠ [] ∨ (truthyTrailing line).isSome = true
      · right
        exact ⟨joinDot (s.pathStack ++ [lastIdxStr s.arrayIndexStack]), hg,
          by simp [step, h1, h2, hm, h3, hg]⟩
      · left; simp [step, h1, h2, hm, h3, hg]
    · cases hk : keyMatch line with
      | some key =>
        by_cases hg : s.bufferedComments ≠ [] ∨ (truthyTrailing line).isSome = true
        · right
          refine ⟨joinDot (s.pathStack ++ [key]), hg, ?_⟩
          simp only [step, h1, h2, hm, h3, hk]
          repeat' split
          any_goals rfl
          all_goals simp_all
        · left
          simp only [step, h1, h2, hm, h3, hk]
          repeat' split
          all_goals rfl
      | none =>
        left
        simp only [step, h1, h2, hm, h3, hk]
        repeat' split
        all_goals rfl

/-- Folding the extractor over any lines preserves the presence invariant
of the comment map. -/
theorem foldl_step_cmOK (lines : List String) :
    ∀ s : BState,
      (∀ q i, cmGet s.cmap q = some i → i.preceding ≠ [] ∨ i.trailing.isSome = true) →
      ∀ q i, cmGet (lines.foldl step s).cmap q = some i →
        i.preceding ≠ [] ∨ i.trailing.isSome = true := by
  induction lines with
  | nil => intro s hs; exact hs
  | cons l ls ih =>
    intro s hs
    apply ih
    intro q i hq
    rcases step_cmap_cases s l with hsame | ⟨pp, hg, heq⟩
    · rw [hsame] at hq
      exact hs q i hq
    · rw [heq, cmGet_cmSet] at hq
      split at hq
      · cases hq; exact hg
      · exact hs q i hq

/-- C6 (comment-map presence invariant): every record in the map returned
by `buildCommentMap` has a non-empty preceding list or a present trailing
comment; no path is stored with an empty preceding list and no trailing
comment. -/
theorem c6_presence_invariant (lines : List String) (p : String) (info : CommentInfo)
    (h : cmGet (buildCommentMap lines) p = some info) :
    info.preceding ≠ [] ∨ info.trailing.isSome = true := by
  refine foldl_step_cmOK lines bInit ?_ p info h
  intro q i hq
  simp [cmGet, bInit, List.find?] at hq

/-- Witness for C6 at a concrete input. -/
theorem c6_presence_invariant_witness :
    cmGet (buildCommentMap (splitLines wRaw)) "a" = some ⟨["  // note"], none⟩ ∧
    ((⟨["  // note"], none⟩ : CommentInfo).preceding ≠ [] ∨
      (⟨["  // note"], none⟩ : CommentInfo).trailing.isSome = true) :=
  ⟨rfl, c6_presence_invariant (splitLines wRaw) "a" ⟨["  // note"], none⟩ rfl⟩

/-- `bumpLast` never empties a non-empty stack. -/
theorem bumpLast_ne_nil (l : List Nat) (h : l ≠ []) : bumpLast l ≠ [] := by
  cases l with
  | nil => exact absurd rfl h
  | cons a rest => cases rest <;> simp [bumpLast]

/-- One extractor step preserves the invariant that array context implies a
non-empty array-index stack (so the unguarded `length - 1` read in the
array-item branch is always in bounds). -/
theorem step_idx_inv (s : BState) (line : String)
    (h : s.insideArray = true → s.arrayIndexStack ≠ []) :
    (step s line).insideArray = true → (step s line).arrayIndexStack ≠ [] := by
  by_cases h1 : trimS line = ""
  · simpa [step, h1] using h
  by_cases h2 : strStartsWith "//" (trimS line) = true
  · simpa [step, h1, h2] using h
  cases hm : arrayStartMatch line with
  | some key => simp [step, h1, h2, hm]
  | none =>
    by_cases h3 : s.insideArray = true ∧ strStartsWith "\"" (trimS line) = true ∧
        ¬ strContainsChar ':' (trimS line) = true
    · intro _
      have hne : s.arrayIndexStack ≠ [] := h h3.1
      simp only [step, h1, h2, hm, h3]
      simp [h3, bumpLast_ne_nil _ hne]
    · cases hk : keyMatch line with
      | some key =>
        simp only [step, h1, h2, hm, h3, hk]
        repeat' split
        all_goals simp_all
      | none =>
        simp only [step, h1, h2, hm, h3, hk]
        repeat' split
        all_goals simp_all

/-- The array-context invariant holds after folding over any lines. -/
theorem foldl_step_idx_inv (lines : List String) :
    ∀ s : BState, (s.insideArray = true → s.arrayIndexStack ≠ []) →
      ((lines.foldl step s).insideArray = true →
        (lines.foldl step s).arrayIndexStack ≠ []) := by
  induction lines with
  | nil => intro s hs; exact hs
  | cons l ls ih => intro s hs; exact ih (step s l) (step_idx_inv s l hs)

/-- A line the extractor cannot classify (non-blank, not an annotation
line, no array-opener match, not shaped like an array item, no object-key
match, not a closing line) only discards the buffered annotations: the map
and the two stacks are untouched, for every state. -/
theorem step_unclassified (s : BState) (line : String)
    (h1 : trimS line ≠ "")
    (h2 : strStartsWith "//" (trimS line) = false)
    (hm : arrayStartMatch line = none)
    (h3 : ¬ (strStartsWith "\"" (trimS line) = true ∧
        ¬ strContainsChar ':' (trimS line) = true))
    (hk : keyMatch line = none)
    (hcl : isCloser (trimS line) = false) :
    step s line = ⟨s.cmap, s.pathStack, s.arrayIndexStack, [], s.insideArray⟩ := by
  have h3x : ¬ (s.insideArray = true ∧ strStartsWith "\"" (trimS line) = true ∧
      ¬ strContainsChar ':' (trimS line) = true) := fun hh => h3 ⟨hh.2.1, hh.2.2⟩
  cases s with
  | mk cm ps idx buf ia =>
    simp only [step, h1, h2, hm, h3x, hk, hcl]
    repeat' split
    all_goals simp_all

/-- C7 (extractor totality / lenience): the extractor is a total function
of its input — in the embedding every branch is defined.  Concretely:
(a) an unclassifiable line is treated as non-structural content, merely
discarding the buffered annotations while leaving the map and both stacks
unchanged; and (b) in every state reachable from the initial state, array
context implies a non-empty array-index stack, so the one unguarded stack
access (`arrayIndexStack[arrayIndexStack.length - 1]` in the item branch)
never underflows; the explicitly guarded pops need no further hypothesis. -/
theorem c7_extractor_lenient :
    (∀ (s : BState) (line : String),
      trimS line ≠ "" →
      strStartsWith "//" (trimS line) = false →
      arrayStartMatch line = none →
      ¬ (strStartsWith "\"" (trimS line) = true ∧
          ¬ strContainsChar ':' (trimS line) = true) →
      keyMatch line = none →
      isCloser (trimS line) = false →
      step s line = ⟨s.cmap, s.pathStack, s.arrayIndexStack, [], s.insideArray⟩) ∧
    (∀ lines : List String,
      (lines.foldl step bInit).insideArray = true →
      (lines.foldl step bInit).arrayIndexStack ≠ []) :=
  ⟨fun s line h1 h2 hm h3 hk hcl => step_unclassified s line h1 h2 hm h3 hk hcl,
   fun lines => foldl_step_idx_inv lines bInit (by simp [bInit])⟩

/-- Witness for C7 at concrete inputs: an unclassifiable line only drops
the buffer, and after an array opener the index stack is non-empty. -/
theorem c7_extractor_lenient_witness :
    step ⟨[], [], [], ["// x"], false⟩ "glob config 12" = ⟨[], [], [], [], false⟩ ∧
    (["\"xs\": ["].foldl step bInit).arrayIndexStack ≠ [] :=
  ⟨by
    rw [c7_extractor_lenient.1 ⟨[], [], [], ["// x"], false⟩ "glob config 12"
      (by decide) rfl rfl (by decide) rfl rfl],
   c7_extractor_lenient.2 ["\"xs\": ["] rfl⟩

/-- The source's scan (which resumes two characters after an odd-parity
marker occurrence) agrees with the specification's occurrence-by-occurrence
scan: skipping the overlapped position is harmless because the overlapping
occurrence has the same quote parity. -/
theorem extractAux_eq_scan (n : Nat) : ∀ cs : List Char, cs.length ≤ n →
    ∀ q, extractAux q cs = trailingScanSpec q cs := by
  induction n with
  | zero =>
    intro cs h q
    have hnil : cs = [] := List.eq_nil_of_length_eq_zero (Nat.le_zero.mp h)
    subst hnil; rfl
  | succ n ih =>
    intro cs h q
    match cs with
    | [] => rfl
    | [c] =>
      by_cases hc : c = '"' <;> by_cases hs : c = '/' <;>
        simp [extractAux, trailingScanSpec, hc, hs]
    | c :: d :: rest =>
      by_cases hcd : c = '/' ∧ d = '/'
      · obtain ⟨hc, hd⟩ := hcd
        subst hc; subst hd
        by_cases hq : q % 2 = 0
        · simp [extractAux, trailingScanSpec, hq]
        · have h1 : extractAux q ('/' :: '/' :: rest) = extractAux q rest := by
            simp [extractAux, hq]
          have h2 : trailingScanSpec q ('/' :: '/' :: rest) =
              trailingScanSpec q ('/' :: rest) := by
            simp [trailingScanSpec, hq]
          have h3 : trailingScanSpec q ('/' :: rest) = trailingScanSpec q rest := by
            simp [trailingScanSpec, hq]
          rw [h1, h2, h3]
          exact ih rest (by simp at h ⊢; omega) q
      · by_cases hc : c = '"'
        · subst hc
          have h1 : extractAux q ('"' :: d :: rest) = extractAux (q + 1) (d :: rest) := by
            simp [extractAux]
          have h2 : trailingScanSpec q ('"' :: d :: rest) =
              trailingScanSpec (q + 1) (d :: rest) := by
            simp [trailingScanSpec]
          rw [h1, h2]
          exact ih (d :: rest) (by simp at h ⊢; omega) (q + 1)
        · rcases Decidable.not_and_iff_or_not.mp hcd with hcs | hds
          · have h1 : extractAux q (c :: d :: rest) = extractAux q (d :: rest) := by
              simp [extractAux, hcs, hc]
            have h2 : trailingScanSpec q (c :: d :: rest) =
                trailingScanSpec (q + (if c = '"' then 1 else 0)) (d :: rest) := by
              simp [trailingScanSpec, hcs, hc]
            simp only [hc, if_false] at h2
            rw [h1, h2]
            exact ih (d :: rest) (by simp at h ⊢; omega) q
          · have h1 : extractAux q (c :: d :: rest) = extractAux q (d :: rest) := by
              by_cases hcs : c = '/'
              · subst hcs; simp [extractAux, hds]
              · simp [extractAux, hcs, hc]
            have h2 : trailingScanSpec q (c :: d :: rest) =
                trailingScanSpec q (d :: rest) := by
              simp [trailingScanSpec, hds, hc]
            rw [h1, h2]
            exact ih (d :: rest) (by simp at h ⊢; omega) q

/-- The specification scan finds nothing exactly when no marker occurrence
has an even preceding-quote count. -/
theorem scan_none_iff : ∀ cs : List Char, ∀ q,
    (trailingScanSpec q cs = none ↔ evenOccExists q cs = false) := by
  intro cs
  induction cs with
  | nil => intro q; simp [trailingScanSpec, evenOccExists]
  | cons c rest ih =>
    intro q
    by_cases h1 : c = '/' <;> by_cases h2 : rest.head? = some '/' <;>
      by_cases h3 : q % 2 = 0 <;>
      simp [trailingScanSpec, evenOccExists, h1, h2, h3] <;> exact ih _

/-- C5 (quote-parity trailing detection): `extractTrailingComment` returns,
for every line, exactly what the claim's scan describes — the text (trimmed,
to end of line) from the first marker occurrence preceded by an even number
of double quotes — and in particular, when no occurrence on the line has an
even preceding-quote count (e.g. the only `//` sits inside a double-quoted
URL), no trailing annotation is detected. -/
theorem c5_trailing_detection (line : String) :
    extractTrailingComment line =
      (trailingScanSpec 0 line.data).map (fun l => (⟨l⟩ : String)) ∧
    (evenOccExists 0 line.data = false → extractTrailingComment line = none) := by
  have he : extractAux 0 line.data = trailingScanSpec 0 line.data :=
    extractAux_eq_scan line.data.length line.data (le_refl _) 0
  constructor
  · simp [extractTrailingComment, he]
  · intro hocc
    have hn : trailingScanSpec 0 line.data = none := (scan_none_iff line.data 0).mpr hocc
    simp [extractTrailingComment, he, hn]

/-- Witness for C5 at the specification's URL example: the only `//` on the
line sits inside a double-quoted string, and no trailing annotation is
detected. -/
theorem c5_trailing_detection_witness :
    evenOccExists 0 ("\"url\": \"https://example.com\",".data) = false ∧
    extractTrailingComment "\"url\": \"https://example.com\"," = none :=
  ⟨by decide,
   (c5_trailing_detection "\"url\": \"https://example.com\",").2 (by decide)⟩

/-- C8 counterexample: the single line emitted for the member `a` carries
its recorded trailing annotation after the comma, so the line does not end
with a comma character. -/
theorem c8_counterexample :
    writeObject (buildCommentMap (splitLines c8raw)) false c8src [] 2 =
      ["  \"a\": 1, // c"] ∧
    syncJson5 c8raw c8src (some false) = "\x7b\n  \"a\": 1, // c\n\x7d" ∧
    strEndsWith "," "  \"a\": 1, // c" = false :=
  ⟨rfl, rfl, by decide⟩


theorem entry_decomp (cm : CMap) (ae : Bool) (k : String) (v : JVal)
    (path : List String) (level : Nat) (inner : List String) :
    entryLinesWith cm ae k v path level inner =
      keyCommentLines cm ae (joinDot (path ++ [k])) level ++
      [indentS (withTrailingOf (memberHead k v)
        (infoTrailing (cmGet cm (joinDot (path ++ [k]))))) level] ++
      entryTail cm ae k v path level inner := by
  cases v <;> simp [entryLinesWith, entryTail, memberHead]

theorem keyCommentLines_of_some (cm : CMap) (ae : Bool) (p : String) (level : Nat)
    (info : CommentInfo) (h : cmGet cm p = some info) :
    keyCommentLines cm ae p level = info.preceding.map (fun c => indentS c level) := by
  unfold keyCommentLines
  rw [h]
  cases hp : info.preceding <;> simp [hp]

theorem writeFields_chunk (cm : CMap) (ae : Bool) (k : String) (v : JVal) :
    ∀ (n : Nat) (fs : JFields), fLen fs ≤ n → ∀ (path : List String) (level : Nat),
    fAssoc fs k = some v →
    ∃ pre post, writeFields cm ae fs path level =
      pre ++ entryLinesWith cm ae k v path level
        (writeObject cm ae v (path ++ [k]) (level + 2)) ++ post := by
  intro n
  induction n with
  | zero =>
    intro fs hle path level h
    match fs with
    | fnil => simp [fAssoc] at h
    | fcons k0 v0 rest => simp [fLen] at hle
  | succ n ih =>
    intro fs hle path level h
    match fs with
    | fnil => simp [fAssoc] at h
    | fcons k0 v0 rest =>
      by_cases hk : k0 = k
      · subst hk
        simp only [fAssoc, if_pos rfl] at h
        cases h
        exact ⟨[], writeFields cm ae rest path level, by simp [writeFields]⟩
      · simp only [fAssoc, if_neg hk] at h
        have hle2 : fLen rest ≤ n := by simp [fLen] at hle; omega
        obtain ⟨pre, post, heq⟩ := ih rest hle2 path level h
        exact ⟨entryLinesWith cm ae k0 v0 path level
            (writeObject cm ae v0 (path ++ [k0]) (level + 2)) ++ pre, post,
          by simp [writeFields, heq]⟩

theorem writeItems_chunk (cm : CMap) (ae : Bool) (path : List String) (key : String)
    (level : Nat) :
    ∀ (n : Nat) (xs : JArr), aLen xs ≤ n → ∀ (j i : Nat) (e : JVal),
    aGet xs i = some e →
    ∃ pre post, writeItems cm ae path key level xs j =
      pre ++ (itemCommentLines cm ae (joinDot (path ++ [key, toString (j + i)])) (level + 2) ++
        [indentS (withTrailingOf (jsonStringify e ++ ",")
          (infoTrailing (cmGet cm (joinDot (path ++ [key, toString (j + i)]))))) (level + 2)]) ++
      post := by
  intro n
  induction n with
  | zero =>
    intro xs hle j i e h
    match xs with
    | anil => simp [aGet] at h
    | acons e0 rest => simp [aLen] at hle
  | succ n ih =>
    intro xs hle j i e h
    match xs with
    | anil => simp [aGet] at h
    | acons e0 rest =>
      cases i with
      | zero =>
        simp only [aGet] at h
        cases h
        exact ⟨[], writeItems cm ae path key level rest (j + 1), by simp [writeItems]⟩
      | succ i =>
        simp only [aGet] at h
        have hle2 : aLen rest ≤ n := by simp [aLen] at hle; omega
        obtain ⟨pre, post, heq⟩ := ih rest hle2 (j + 1) i e h
        have hoff : j + 1 + i = j + (i + 1) := by omega
        rw [hoff] at heq
        refine ⟨(itemCommentLines cm ae (joinDot (path ++ [key, toString j])) (level + 2) ++
          [indentS (withTrailingOf (jsonStringify e0 ++ ",")
            (infoTrailing (cmGet cm (joinDot (path ++ [key, toString j]))))) (level + 2)]) ++ pre,
          post, ?_⟩
        simp [writeItems, heq]

theorem objDescend_chunk (cm : CMap) (ae : Bool) :
    ∀ (ps : List String) (tree : JVal) (path : List String) (level : Nat) (fs : JFields),
    objDescend tree ps = some (jobj fs) →
    ∃ pre post, writeObject cm ae tree path level =
      pre ++ writeFields cm ae fs (path ++ ps) (level + 2 * ps.length) ++ post := by
  intro ps
  induction ps with
  | nil =>
    intro tree path level fs h
    simp only [objDescend, Option.some.injEq] at h
    subst h
    exact ⟨[], [], by simp [writeObject]⟩
  | cons k ps ih =>
    intro tree path level fs h
    cases tree with
    | jnull => simp [objDescend] at h
    | jbool b => simp [objDescend] at h
    | jnum m => simp [objDescend] at h
    | jstr s => simp [objDescend] at h
    | jarr xs => simp [objDescend] at h
    | jobj fs0 =>
      cases hA : fAssoc fs0 k with
      | none => simp [objDescend, hA] at h
      | some v1 =>
        have hd : objDescend v1 ps = some (jobj fs) := by
          simpa [objDescend, hA] using h
        obtain ⟨fs1, hv1⟩ : ∃ fs1, v1 = jobj fs1 := by
          cases ps with
          | nil =>
            simp only [objDescend, Option.some.injEq] at hd
            exact ⟨fs, hd⟩
          | cons k2 ps2 =>
            cases v1 with
            | jobj f => exact ⟨f, rfl⟩
            | jnull => simp [objDescend] at hd
            | jbool b => simp [objDescend] at hd
            | jnum m => simp [objDescend] at hd
            | jstr s => simp [objDescend] at hd
            | jarr xs2 => simp [objDescend] at hd
        subst hv1
        obtain ⟨pre1, post1, h1⟩ :=
          writeFields_chunk cm ae k (jobj fs1) (fLen fs0) fs0 (le_refl _) path level hA
        obtain ⟨pre2, post2, h2⟩ := ih (jobj fs1) (path ++ [k]) (level + 2) fs hd
        have hp : (path ++ [k]) ++ ps = path ++ k :: ps := by simp
        have hl : level + 2 + 2 * ps.length = level + 2 * (k :: ps).length := by
          simp [List.length_cons]
          ring
        rw [hp, hl] at h2
        rw [entry_decomp] at h1
        refine ⟨pre1 ++ keyCommentLines cm ae (joinDot (path ++ [k])) level ++
          [indentS (withTrailingOf (memberHead k (jobj fs1))
            (infoTrailing (cmGet cm (joinDot (path ++ [k]))))) level] ++ pre2,
          post2 ++ [indentS "\x7d," level] ++ post1, ?_⟩
        have hwo : writeObject cm ae (jobj fs0) path level = writeFields cm ae fs0 path level := rfl
        rw [hwo, h1]
        have htail : entryTail cm ae k (jobj fs1) path level
            (writeObject cm ae (jobj fs1) (path ++ [k]) (level + 2)) =
            writeObject cm ae (jobj fs1) (path ++ [k]) (level + 2) ++
              [indentS "\x7d," level] := rfl
        rw [htail, h2]
        simp [List.append_assoc]

theorem strAppend_assoc (a b c : String) : a ++ b ++ c = a ++ (b ++ c) := by
  apply congrArg String.mk
  show (a ++ b).data ++ c.data = a.data ++ (b ++ c).data
  simp [String.data_append, List.append_assoc]

theorem joinNl_append (a b : List String) (ha : a ≠ []) (hb : b ≠ []) :
    joinNl (a ++ b) = joinNl a ++ "\n" ++ joinNl b := by
  induction a with
  | nil => exact absurd rfl ha
  | cons a0 rest ih =>
    cases rest with
    | nil =>
      cases b with
      | nil => exact absurd rfl hb
      | cons b0 bs => rfl
    | cons a1 rest2 =>
      have h1 : joinNl ((a0 :: a1 :: rest2) ++ b) =
          a0 ++ "\n" ++ joinNl ((a1 :: rest2) ++ b) := rfl
      have h2 : joinNl (a0 :: a1 :: rest2) = a0 ++ "\n" ++ joinNl (a1 :: rest2) := rfl
      rw [h1, ih (by simp), h2]
      simp [strAppend_assoc]

theorem output_infix (gen block pre post : List String)
    (h : gen = pre ++ block ++ post) (hb : block ≠ []) :
    ∃ s t, "\x7b\n" ++ joinNl gen ++ "\n\x7d" = s ++ (joinNl block ++ t) := by
  subst h
  by_cases hpre : pre = [] <;> by_cases hpost : post = []
  · subst hpre; subst hpost
    exact ⟨"\x7b\n", "\n\x7d", by simp [strAppend_assoc]⟩
  · subst hpre
    refine ⟨"\x7b\n", "\n" ++ joinNl post ++ "\n\x7d", ?_⟩
    simp only [List.nil_append]
    rw [joinNl_append block post hb hpost]
    simp [strAppend_assoc]
  · subst hpost
    refine ⟨"\x7b\n" ++ joinNl pre ++ "\n", "\n\x7d", ?_⟩
    simp only [List.append_nil]
    rw [joinNl_append pre block hpre hb]
    simp [strAppend_assoc]
  · refine ⟨"\x7b\n" ++ joinNl pre ++ "\n", "\n" ++ joinNl post ++ "\n\x7d", ?_⟩
    rw [joinNl_append (pre ++ block) post (by simp [hpre]) hpost,
      joinNl_append pre block hpre hb]
    simp [strAppend_assoc]

theorem itemCommentLines_of_some (cm : CMap) (ae : Bool) (p : String) (level : Nat)
    (info : CommentInfo) (h : cmGet cm p = some info) :
    itemCommentLines cm ae p level = info.preceding.map (fun c => indentS c level) := by
  unfold itemCommentLines
  rw [h]

theorem c2_member_preserved (raw : String) (tree : JVal) (ae : Bool)
    (ps : List String) (k : String) (fs : JFields) (v : JVal) (info : CommentInfo)
    (hdesc : objDescend tree ps = some (jobj fs))
    (hA : fAssoc fs k = some v)
    (hget : cmGet (buildCommentMap (splitLines raw)) (joinDot (ps ++ [k])) = some info) :
    ∃ pre post,
      writeObject (buildCommentMap (splitLines raw)) ae tree [] 2 =
        pre ++ (info.preceding.map (fun c => indentS c (2 + 2 * ps.length)) ++
          [indentS (withTrailingOf (memberHead k v) info.trailing) (2 + 2 * ps.length)]) ++ post ∧
      ∃ s t, syncJson5 raw tree (some ae) =
        s ++ (joinNl (info.preceding.map (fun c => indentS c (2 + 2 * ps.length)) ++
          [indentS (withTrailingOf (memberHead k v) info.trailing) (2 + 2 * ps.length)]) ++ t) := by
  have hcm : buildCommentMap (splitLines raw) = buildCommentMap (splitLines raw) := rfl
  obtain ⟨pre1, post1, h1⟩ :=
    objDescend_chunk (buildCommentMap (splitLines raw)) ae ps tree [] 2 fs hdesc
  simp only [List.nil_append] at h1
  obtain ⟨pre2, post2, h2⟩ :=
    writeFields_chunk (buildCommentMap (splitLines raw)) ae k v (fLen fs) fs (le_refl _)
      ps (2 + 2 * ps.length) hA
  rw [entry_decomp] at h2
  rw [keyCommentLines_of_some _ ae _ _ info hget] at h2
  have ht : infoTrailing (cmGet (buildCommentMap (splitLines raw)) (joinDot (ps ++ [k]))) =
      info.trailing := by rw [hget]; rfl
  rw [ht] at h2
  rw [h2] at h1
  refine ⟨pre1 ++ pre2,
    entryTail (buildCommentMap (splitLines raw)) ae k v ps (2 + 2 * ps.length)
        (writeObject (buildCommentMap (splitLines raw)) ae v (ps ++ [k]) (2 + 2 * ps.length + 2)) ++
      post2 ++ post1, ?_, ?_⟩
  · rw [h1]; simp [List.append_assoc]
  · have hgen : writeObject (buildCommentMap (splitLines raw)) ae tree [] 2 =
        (pre1 ++ pre2) ++
        (info.preceding.map (fun c => indentS c (2 + 2 * ps.length)) ++
          [indentS (withTrailingOf (memberHead k v) info.trailing) (2 + 2 * ps.length)]) ++
        (entryTail (buildCommentMap (splitLines raw)) ae k v ps (2 + 2 * ps.length)
          (writeObject (buildCommentMap (splitLines raw)) ae v (ps ++ [k]) (2 + 2 * ps.length + 2)) ++
          post2 ++ post1) := by
      rw [h1]; simp [List.append_assoc]
    have := output_infix _ _ _ _ hgen (by simp)
    simpa [syncJson5] using this

theorem c2_element_preserved (raw : String) (tree : JVal) (ae : Bool)
    (ps : List String) (k : String) (fs : JFields) (xs : JArr) (i : Nat) (e : JVal)
    (info : CommentInfo)
    (hdesc : objDescend tree ps = some (jobj fs))
    (hA : fAssoc fs k = some (jarr xs))
    (hi : aGet xs i = some e)
    (hget : cmGet (buildCommentMap (splitLines raw))
      (joinDot (ps ++ [k, toString i])) = some info) :
    ∃ pre post,
      writeObject (buildCommentMap (splitLines raw)) ae tree [] 2 =
        pre ++ (info.preceding.map (fun c => indentS c (2 + 2 * ps.length + 2)) ++
          [indentS (withTrailingOf (jsonStringify e ++ ",") info.trailing)
            (2 + 2 * ps.length + 2)]) ++ post ∧
      ∃ s t, syncJson5 raw tree (some ae) =
        s ++ (joinNl (info.preceding.map (fun c => indentS c (2 + 2 * ps.length + 2)) ++
          [indentS (withTrailingOf (jsonStringify e ++ ",") info.trailing)
            (2 + 2 * ps.length + 2)]) ++ t) := by
  obtain ⟨pre1, post1, h1⟩ :=
    objDescend_chunk (buildCommentMap (splitLines raw)) ae ps tree [] 2 fs hdesc
  simp only [List.nil_append] at h1
  obtain ⟨pre2, post2, h2⟩ :=
    writeFields_chunk (buildCommentMap (splitLines raw)) ae k (jarr xs) (fLen fs) fs
      (le_refl _) ps (2 + 2 * ps.length) hA
  rw [entry_decomp] at h2
  obtain ⟨pre3, post3, h3⟩ :=
    writeItems_chunk (buildCommentMap (splitLines raw)) ae ps k (2 + 2 * ps.length)
      (aLen xs) xs (le_refl _) 0 i e hi
  simp only [Nat.zero_add] at h3
  rw [itemCommentLines_of_some _ ae _ _ info hget] at h3
  have ht : infoTrailing (cmGet (buildCommentMap (splitLines raw))
      (joinDot (ps ++ [k, toString i]))) = info.trailing := by rw [hget]; rfl
  rw [ht] at h3
  have htail : entryTail (buildCommentMap (splitLines raw)) ae k (jarr xs) ps
      (2 + 2 * ps.length)
      (writeObject (buildCommentMap (splitLines raw)) ae (jarr xs) (ps ++ [k])
        (2 + 2 * ps.length + 2)) =
      writeItems (buildCommentMap (splitLines raw)) ae ps k (2 + 2 * ps.length) xs 0 ++
        [indentS "]," (2 + 2 * ps.length)] := rfl
  rw [htail, h3] at h2
  rw [h2] at h1
  have hgen : writeObject (buildCommentMap (splitLines raw)) ae tree [] 2 =
      (pre1 ++ pre2 ++
        keyCommentLines (buildCommentMap (splitLines raw)) ae (joinDot (ps ++ [k]))
          (2 + 2 * ps.length) ++
        [indentS (withTrailingOf (memberHead k (jarr xs))
          (infoTrailing (cmGet (buildCommentMap (splitLines raw)) (joinDot (ps ++ [k])))))
          (2 + 2 * ps.length)] ++ pre3) ++
      (info.preceding.map (fun c => indentS c (2 + 2 * ps.length + 2)) ++
        [indentS (withTrailingOf (jsonStringify e ++ ",") info.trailing)
          (2 + 2 * ps.length + 2)]) ++
      (post3 ++ [indentS "]," (2 + 2 * ps.length)] ++ post2 ++ post1) := by
    rw [h1]; simp [List.append_assoc]
  refine ⟨_, _, hgen, ?_⟩
  have := output_infix _ _ _ _ hgen (by simp)
  simpa [syncJson5] using this

theorem keyCommentLines_of_none (cm : CMap) (ae : Bool) (p : String) (level : Nat)
    (h : cmGet cm p = none) :
    keyCommentLines cm ae p level = if ae then [indentS "//" level] else [] := by
  unfold keyCommentLines
  rw [h]

theorem itemCommentLines_of_none (cm : CMap) (ae : Bool) (p : String) (level : Nat)
    (h : cmGet cm p = none) :
    itemCommentLines cm ae p level = if ae then [indentS "//" level] else [] := by
  unfold itemCommentLines
  rw [h]

theorem c3_member_placeholder (raw : String) (tree : JVal) (ae : Bool)
    (ps : List String) (k : String) (fs : JFields) (v : JVal)
    (hdesc : objDescend tree ps = some (jobj fs))
    (hA : fAssoc fs k = some v)
    (hget : cmGet (buildCommentMap (splitLines raw)) (joinDot (ps ++ [k])) = none) :
    ∃ pre post,
      writeObject (buildCommentMap (splitLines raw)) ae tree [] 2 =
        pre ++ ((if ae then [indentS "//" (2 + 2 * ps.length)] else []) ++
          [indentS (memberHead k v) (2 + 2 * ps.length)]) ++ post := by
  obtain ⟨pre1, post1, h1⟩ :=
    objDescend_chunk (buildCommentMap (splitLines raw)) ae ps tree [] 2 fs hdesc
  simp only [List.nil_append] at h1
  obtain ⟨pre2, post2, h2⟩ :=
    writeFields_chunk (buildCommentMap (splitLines raw)) ae k v (fLen fs) fs (le_refl _)
      ps (2 + 2 * ps.length) hA
  rw [entry_decomp] at h2
  rw [keyCommentLines_of_none _ ae _ _ hget] at h2
  have ht : infoTrailing (cmGet (buildCommentMap (splitLines raw)) (joinDot (ps ++ [k]))) =
      none := by rw [hget]; rfl
  rw [ht] at h2
  have hw : withTrailingOf (memberHead k v) none = memberHead k v := rfl
  rw [hw] at h2
  rw [h2] at h1
  refine ⟨pre1 ++ pre2,
    entryTail (buildCommentMap (splitLines raw)) ae k v ps (2 + 2 * ps.length)
        (writeObject (buildCommentMap (splitLines raw)) ae v (ps ++ [k])
          (2 + 2 * ps.length + 2)) ++ post2 ++ post1, ?_⟩
  rw [h1]
  simp [List.append_assoc]

theorem c3_element_placeholder (raw : String) (tree : JVal) (ae : Bool)
    (ps : List String) (k : String) (fs : JFields) (xs : JArr) (i : Nat) (e : JVal)
    (hdesc : objDescend tree ps = some (jobj fs))
    (hA : fAssoc fs k = some (jarr xs))
    (hi : aGet xs i = some e)
    (hget : cmGet (buildCommentMap (splitLines raw))
      (joinDot (ps ++ [k, toString i])) = none) :
    ∃ pre post,
      writeObject (buildCommentMap (splitLines raw)) ae tree [] 2 =
        pre ++ ((if ae then [indentS "//" (2 + 2 * ps.length + 2)] else []) ++
          [indentS (jsonStringify e ++ ",") (2 + 2 * ps.length + 2)]) ++ post := by
  obtain ⟨pre1, post1, h1⟩ :=
    objDescend_chunk (buildCommentMap (splitLines raw)) ae ps tree [] 2 fs hdesc
  simp only [List.nil_append] at h1
  obtain ⟨pre2, post2, h2⟩ :=
    writeFields_chunk (buildCommentMap (splitLines raw)) ae k (jarr xs) (fLen fs) fs
      (le_refl _) ps (2 + 2 * ps.length) hA
  rw [entry_decomp] at h2
  obtain ⟨pre3, post3, h3⟩ :=
    writeItems_chunk (buildCommentMap (splitLines raw)) ae ps k (2 + 2 * ps.length)
      (aLen xs) xs (le_refl _) 0 i e hi
  simp only [Nat.zero_add] at h3
  rw [itemCommentLines_of_none _ ae _ _ hget] at h3
  have ht : infoTrailing (cmGet (buildCommentMap (splitLines raw))
      (joinDot (ps ++ [k, toString i]))) = none := by rw [hget]; rfl
  rw [ht] at h3
  have hw : withTrailingOf (jsonStringify e ++ ",") none = jsonStringify e ++ "," := rfl
  rw [hw] at h3
  have htail : entryTail (buildCommentMap (splitLines raw)) ae k (jarr xs) ps
      (2 + 2 * ps.length)
      (writeObject (buildCommentMap (splitLines raw)) ae (jarr xs) (ps ++ [k])
        (2 + 2 * ps.length + 2)) =
      writeItems (buildCommentMap (splitLines raw)) ae ps k (2 + 2 * ps.length) xs 0 ++
        [indentS "]," (2 + 2 * ps.length)] := rfl
  rw [htail, h3] at h2
  rw [h2] at h1
  refine ⟨pre1 ++ pre2 ++
    keyCommentLines (buildCommentMap (splitLines raw)) ae (joinDot (ps ++ [k]))
      (2 + 2 * ps.length) ++
    [indentS (withTrailingOf (memberHead k (jarr xs))
      (infoTrailing (cmGet (buildCommentMap (splitLines raw)) (joinDot (ps ++ [k])))))
      (2 + 2 * ps.length)] ++ pre3,
    post3 ++ [indentS "]," (2 + 2 * ps.length)] ++ post2 ++ post1, ?_⟩
  rw [h1]
  simp [List.append_assoc]

/-- C2 (amended): annotation preservation holds for the paths the
regenerator actually visits — object members reached through object members
only, and the elements of an array at such a position.  For every raw text,
every such path recorded in the extracted comment map, and every
configuration, the regenerated lines contain the record's preceding
annotations (re-indented) immediately above the member's or element's first
line, with the trailing annotation appended to that line, and the joined
output of `syncJson5` contains the same block.  (Annotations at paths that
pass through an array element are not re-attached — see the counterexample
— matching the source's documented limitation on arrays of objects.) -/
theorem c2_annotation_preservation :
    (∀ (raw : String) (tree : JVal) (ae : Bool) (ps : List String) (k : String)
        (fs : JFields) (v : JVal) (info : CommentInfo),
      objDescend tree ps = some (jobj fs) →
      fAssoc fs k = some v →
      cmGet (buildCommentMap (splitLines raw)) (joinDot (ps ++ [k])) = some info →
      ∃ pre post,
        writeObject (buildCommentMap (splitLines raw)) ae tree [] 2 =
          pre ++ (info.preceding.map (fun c => indentS c (2 + 2 * ps.length)) ++
            [indentS (withTrailingOf (memberHead k v) info.trailing)
              (2 + 2 * ps.length)]) ++ post ∧
        ∃ s t, syncJson5 raw tree (some ae) =
          s ++ (joinNl (info.preceding.map (fun c => indentS c (2 + 2 * ps.length)) ++
            [indentS (withTrailingOf (memberHead k v) info.trailing)
              (2 + 2 * ps.length)]) ++ t)) ∧
    (∀ (raw : String) (tree : JVal) (ae : Bool) (ps : List String) (k : String)
        (fs : JFields) (xs : JArr) (i : Nat) (e : JVal) (info : CommentInfo),
      objDescend tree ps = some (jobj fs) →
      fAssoc fs k = some (jarr xs) →
      aGet xs i = some e →
      cmGet (buildCommentMap (splitLines raw))
        (joinDot (ps ++ [k, toString i])) = some info →
      ∃ pre post,
        writeObject (buildCommentMap (splitLines raw)) ae tree [] 2 =
          pre ++ (info.preceding.map (fun c => indentS c (2 + 2 * ps.length + 2)) ++
            [indentS (withTrailingOf (jsonStringify e ++ ",") info.trailing)
              (2 + 2 * ps.length + 2)]) ++ post ∧
        ∃ s t, syncJson5 raw tree (some ae) =
          s ++ (joinNl (info.preceding.map (fun c => indentS c (2 + 2 * ps.length + 2)) ++
            [indentS (withTrailingOf (jsonStringify e ++ ",") info.trailing)
              (2 + 2 * ps.length + 2)]) ++ t)) :=
  ⟨c2_member_preserved, c2_element_preserved⟩

/-- Witness for C2 (amended) at concrete inputs: a preceding comment on a
top-level member and one on an array item both reappear in the output,
immediately above their targets. -/
theorem c2_annotation_preservation_witness :
    (cmGet (buildCommentMap (splitLines wRaw)) "a" = some ⟨["  // note"], none⟩ ∧
      ∃ pre post,
        writeObject (buildCommentMap (splitLines wRaw)) false wSrc [] 2 =
          pre ++ ["  // note", "  \"a\": 1,"] ++ post ∧
        ∃ s t, syncJson5 wRaw wSrc (some false) =
          s ++ (joinNl ["  // note", "  \"a\": 1,"] ++ t)) ∧
    (cmGet (buildCommentMap (splitLines wArrRaw)) "xs.0" =
        some ⟨["    // item note"], none⟩ ∧
      ∃ pre post,
        writeObject (buildCommentMap (splitLines wArrRaw)) false wArrSrc [] 2 =
          pre ++ ["    // item note", "    \"glob\","] ++ post ∧
        ∃ s t, syncJson5 wArrRaw wArrSrc (some false) =
          s ++ (joinNl ["    // item note", "    \"glob\","] ++ t)) :=
  ⟨⟨rfl,
    c2_annotation_preservation.1 wRaw wSrc false [] "a" (fcons "a" (jnum 1) fnil)
      (jnum 1) ⟨["  // note"], none⟩ rfl rfl rfl⟩,
   ⟨rfl,
    c2_annotation_preservation.2 wArrRaw wArrSrc false [] "xs"
      (fcons "xs" (jarr (acons (jstr "glob") anil)) fnil)
      (acons (jstr "glob") anil) 0 (jstr "glob") ⟨["    // item note"], none⟩
      rfl rfl rfl rfl⟩⟩

/-- C3 (placeholder policy): for every raw text and every emitted path of
the canonical tree that has no record in the extracted comment map (in
particular every path absent from the original annotated document), the
member or element receives exactly one placeholder `//` line immediately
before its first emitted line when `addEmptyCommentIfMissing` is true, and
no inserted line at all when it is false. -/
theorem c3_placeholder_policy :
    (∀ (raw : String) (tree : JVal) (ae : Bool) (ps : List String) (k : String)
        (fs : JFields) (v : JVal),
      objDescend tree ps = some (jobj fs) →
      fAssoc fs k = some v →
      cmGet (buildCommentMap (splitLines raw)) (joinDot (ps ++ [k])) = none →
      ∃ pre post,
        writeObject (buildCommentMap (splitLines raw)) ae tree [] 2 =
          pre ++ ((if ae then [indentS "//" (2 + 2 * ps.length)] else []) ++
            [indentS (memberHead k v) (2 + 2 * ps.length)]) ++ post) ∧
    (∀ (raw : String) (tree : JVal) (ae : Bool) (ps : List String) (k : String)
        (fs : JFields) (xs : JArr) (i : Nat) (e : JVal),
      objDescend tree ps = some (jobj fs) →
      fAssoc fs k = some (jarr xs) →
      aGet xs i = some e →
      cmGet (buildCommentMap (splitLines raw))
        (joinDot (ps ++ [k, toString i])) = none →
      ∃ pre post,
        writeObject (buildCommentMap (splitLines raw)) ae tree [] 2 =
          pre ++ ((if ae then [indentS "//" (2 + 2 * ps.length + 2)] else []) ++
            [indentS (jsonStringify e ++ ",") (2 + 2 * ps.length + 2)]) ++ post) :=
  ⟨c3_member_placeholder, c3_element_placeholder⟩

/-- Witness for C3 at concrete inputs: with an empty original document, the
member gets exactly one placeholder when the option is on and none when it
is off, and an array element gets one when the option is on. -/
theorem c3_placeholder_policy_witness :
    (cmGet (buildCommentMap (splitLines "")) "a" = none ∧
      ∃ pre post,
        writeObject (buildCommentMap (splitLines "")) true wSrc [] 2 =
          pre ++ ["  //", "  \"a\": 1,"] ++ post) ∧
    (∃ pre post,
      writeObject (buildCommentMap (splitLines "")) false wSrc [] 2 =
        pre ++ ["  \"a\": 1,"] ++ post) ∧
    (∃ pre post,
      writeObject (buildCommentMap (splitLines "")) true wArrSrc [] 2 =
        pre ++ ["    //", "    \"glob\","] ++ post) :=
  ⟨⟨rfl,
    c3_placeholder_policy.1 "" wSrc true [] "a" (fcons "a" (jnum 1) fnil) (jnum 1)
      rfl rfl rfl⟩,
   c3_placeholder_policy.1 "" wSrc false [] "a" (fcons "a" (jnum 1) fnil) (jnum 1)
     rfl rfl rfl,
   c3_placeholder_policy.2 "" wArrSrc true [] "xs"
     (fcons "xs" (jarr (acons (jstr "glob") anil)) fnil)
     (acons (jstr "glob") anil) 0 (jstr "glob") rfl rfl rfl rfl⟩


theorem dropWhile_append_cons (p : Char → Bool) (X : List Char) (c : Char)
    (Y : List Char) (hc : p c = false) :
    List.dropWhile p (X ++ c :: Y) = List.dropWhile p X ++ c :: Y := by
  induction X with
  | nil => simp [List.dropWhile, hc]
  | cons x xs ih =>
    by_cases hx : p x
    · simp [List.dropWhile, hx, ih]
    · simp [List.dropWhile, hx]

theorem ltrim_cons_nonws (c : Char) (l : List Char) (hc : isWsC c = false) :
    ltrimL (c :: l) = c :: l := by
  simp [ltrimL, List.dropWhile, hc]

theorem rtrim_append_nonws (A : List Char) (c : Char) (B : List Char)
    (hc : isWsC c = false) :
    rtrimL ((A ++ [c]) ++ B) = (A ++ [c]) ++ rtrimL B := by
  unfold rtrimL
  rw [List.reverse_append, List.reverse_append]
  simp only [List.reverse_cons, List.reverse_nil, List.nil_append]
  rw [List.append_assoc, List.singleton_append]
  rw [dropWhile_append_cons isWsC B.reverse c A.reverse hc]
  simp

theorem trim_core (c : Char) (r : List Char) (hc : isWsC c = false) (B : List Char) :
    trimL (((c :: r) ++ [',']) ++ B) = ((c :: r) ++ [',']) ++ rtrimL B := by
  unfold trimL
  rw [rtrim_append_nonws (c :: r) ',' B (by decide)]
  have : ((c :: r) ++ [',']) ++ rtrimL B = c :: ((r ++ [',']) ++ rtrimL B) := by simp
  rw [this, ltrim_cons_nonws c _ hc]

theorem natDigitsAux_head (fuel : Nat) : ∀ n, n < fuel →
    ∃ d r, natDigitsAux fuel n = digitChar d :: r ∧ d < 10 := by
  induction fuel with
  | zero => intro n h; omega
  | succ m ih =>
    intro n h
    by_cases h10 : n < 10
    · exact ⟨n, [], by simp [natDigitsAux, h10], h10⟩
    · have hlt : n / 10 < m := by
        have h1 : n / 10 < n := Nat.div_lt_self (by omega) (by omega)
        omega
      obtain ⟨d, r, hr, hd⟩ := ih (n / 10) hlt
      exact ⟨d, r ++ [digitChar (n % 10)], by simp [natDigitsAux, h10, hr], hd⟩

theorem digitChar_not_ws (d : Nat) (hd : d < 10) : isWsC (digitChar d) = false := by
  interval_cases d <;> decide

theorem stringify_head (v : JVal) :
    ∃ c r, (jsonStringify v).data = c :: r ∧ isWsC c = false := by
  cases v with
  | jnull => exact ⟨'n', "ull".data, rfl, by decide⟩
  | jbool b =>
    cases b with
    | false => exact ⟨'f', "alse".data, rfl, by decide⟩
    | true => exact ⟨'t', "rue".data, rfl, by decide⟩
  | jnum n =>
    cases n with
    | ofNat m =>
      obtain ⟨d, r, hr, hd⟩ := natDigitsAux_head (m + 1) m (by omega)
      exact ⟨digitChar d, r, by simp [jsonStringify, intRepr, natRepr, hr],
        digitChar_not_ws d hd⟩
    | negSucc m =>
      refine ⟨'-', (natRepr (m + 1)).data, ?_, by decide⟩
      show (intRepr (Int.negSucc m)).data = '-' :: (natRepr (m + 1)).data
      rw [show intRepr (Int.negSucc m) = "-" ++ natRepr (m + 1) from rfl]
      rw [String.data_append]
      rfl
  | jstr s => exact ⟨'"', _, rfl, by decide⟩
  | jarr xs =>
    refine ⟨'[', (jsonStringifyItems xs).data ++ [']'], ?_, by decide⟩
    show (jsonStringify (jarr xs)).data = _
    rw [show jsonStringify (jarr xs) = "[" ++ jsonStringifyItems xs ++ "]" from rfl]
    rw [String.data_append, String.data_append]
    rfl
  | jobj fs =>
    refine ⟨'\x7b', (jsonStringifyFields fs).data ++ ['\x7d'], ?_, by decide⟩
    show (jsonStringify (jobj fs)).data = _
    rw [show jsonStringify (jobj fs) = "\x7b" ++ jsonStringifyFields fs ++ "\x7d" from rfl]
    rw [String.data_append, String.data_append]
    rfl

theorem quoteKey_head (k : String) : ∃ r, (quoteKey k).data = '"' :: r := by
  unfold quoteKey
  split
  · refine ⟨k.data ++ ['"'], ?_⟩
    rw [String.data_append, String.data_append]
    rfl
  · exact ⟨_, rfl⟩

theorem withTrailingOf_none (base : String) : withTrailingOf base none = base := rfl

theorem scalar_line_shape (base : String) (c0 : Char) (r0 : List Char)
    (hbase : base.data = (c0 :: r0) ++ [','] ) (hc : isWsC c0 = false)
    (tr : Option String) (level : Nat) :
    ∃ a b, indentS (withTrailingOf base tr) level = ⟨a ++ ',' :: b⟩ ∧
      ((b = [] ∧ tr = none) ∨ ∃ t, tr = some t ∧ b = rtrimL (' ' :: t.data)) := by
  cases tr with
  | none =>
    refine ⟨List.replicate level ' ' ++ c0 :: r0, [], ?_, Or.inl ⟨rfl, rfl⟩⟩
    rw [withTrailingOf_none]
    unfold indentS
    rw [hbase]
    have h1 : ((c0 :: r0) ++ [',']) = ((c0 :: r0) ++ [',']) ++ ([] : List Char) := by simp
    rw [h1, trim_core c0 r0 hc []]
    apply congrArg String.mk
    simp [rtrimL]
  | some t =>
    refine ⟨List.replicate level ' ' ++ c0 :: r0, rtrimL (' ' :: t.data), ?_,
      Or.inr ⟨t, rfl, rfl⟩⟩
    have hdata : (withTrailingOf base (some t)).data =
        ((c0 :: r0) ++ [',']) ++ (' ' :: t.data) := by
      show (base ++ " " ++ t).data = _
      rw [String.data_append, String.data_append, hbase]
      simp
    unfold indentS
    rw [hdata, trim_core c0 r0 hc (' ' :: t.data)]
    apply congrArg String.mk
    simp

theorem memberHead_scalar_data (k : String) (v : JVal) (hv : isScalar v = true) :
    ∃ r0, (memberHead k v).data = ('"' :: r0) ++ [','] := by
  obtain ⟨kr, hk⟩ := quoteKey_head k
  refine ⟨kr ++ (": ").data ++ (jsonStringify v).data, ?_⟩
  cases v with
  | jobj fs => simp [isScalar] at hv
  | jarr xs => simp [isScalar] at hv
  | jnull =>
    show (quoteKey k ++ ": " ++ jsonStringify jnull ++ ",").data = _
    rw [String.data_append, String.data_append, String.data_append, hk]
    simp
  | jbool b =>
    show (quoteKey k ++ ": " ++ jsonStringify (jbool b) ++ ",").data = _
    rw [String.data_append, String.data_append, String.data_append, hk]
    simp
  | jnum n =>
    show (quoteKey k ++ ": " ++ jsonStringify (jnum n) ++ ",").data = _
    rw [String.data_append, String.data_append, String.data_append, hk]
    simp
  | jstr s =>
    show (quoteKey k ++ ": " ++ jsonStringify (jstr s) ++ ",").data = _
    rw [String.data_append, String.data_append, String.data_append, hk]
    simp

theorem itemLine_data (e : JVal) :
    ∃ c0 r0, (jsonStringify e ++ ",").data = (c0 :: r0) ++ [','] ∧ isWsC c0 = false := by
  obtain ⟨c, r, hr, hc⟩ := stringify_head e
  refine ⟨c, r, ?_, hc⟩
  rw [String.data_append, hr]

theorem c8_member_last (cm : CMap) (ae : Bool) (k : String) (v : JVal)
    (path : List String) (level : Nat) (inner : List String) :
    ∃ front a b,
      entryLinesWith cm ae k v path level inner =
        front ++ [(⟨a ++ ',' :: b⟩ : String)] ∧
      (b = [] ∨ ∃ t, infoTrailing (cmGet cm (joinDot (path ++ [k]))) = some t ∧
        isScalar v = true ∧ b = rtrimL (' ' :: t.data)) := by
  rw [entry_decomp]
  cases v with
  | jobj fs =>
    refine ⟨keyCommentLines cm ae (joinDot (path ++ [k])) level ++
      [indentS (withTrailingOf (memberHead k (jobj fs))
        (infoTrailing (cmGet cm (joinDot (path ++ [k]))))) level] ++ inner,
      List.replicate level ' ' ++ ['\x7d'], [], ?_, Or.inl rfl⟩
    have hcl : indentS "\x7d," level =
        (⟨(List.replicate level ' ' ++ ['\x7d']) ++ ',' :: []⟩ : String) := by
      unfold indentS
      apply congrArg String.mk
      have ht : trimL "\x7d,".data = ['\x7d', ','] := by decide
      rw [ht]
      simp
    rw [show entryTail cm ae k (jobj fs) path level inner =
      inner ++ [indentS "\x7d," level] from rfl]
    rw [hcl]
    simp [List.append_assoc]
  | jarr xs =>
    refine ⟨keyCommentLines cm ae (joinDot (path ++ [k])) level ++
      [indentS (withTrailingOf (memberHead k (jarr xs))
        (infoTrailing (cmGet cm (joinDot (path ++ [k]))))) level] ++
      writeItems cm ae path k level xs 0,
      List.replicate level ' ' ++ [']'], [], ?_, Or.inl rfl⟩
    have hcl : indentS "]," level =
        (⟨(List.replicate level ' ' ++ [']']) ++ ',' :: []⟩ : String) := by
      unfold indentS
      apply congrArg String.mk
      have ht : trimL "],".data = [']', ','] := by decide
      rw [ht]
      simp
    rw [show entryTail cm ae k (jarr xs) path level inner =
      writeItems cm ae path k level xs 0 ++ [indentS "]," level] from rfl]
    rw [hcl]
    simp [List.append_assoc]
  | jnull =>
    obtain ⟨r0, hbase⟩ := memberHead_scalar_data k jnull rfl
    obtain ⟨a, b, hline, hdisj⟩ := scalar_line_shape (memberHead k jnull) '"' r0 hbase
      (by decide) (infoTrailing (cmGet cm (joinDot (path ++ [k])))) level
    refine ⟨keyCommentLines cm ae (joinDot (path ++ [k])) level, a, b, ?_, ?_⟩
    · rw [hline]
      rw [show entryTail cm ae k jnull path level inner = [] from rfl]
      simp
    · rcases hdisj with ⟨hb, _⟩ | ⟨t, htr, hb⟩
      · exact Or.inl hb
      · exact Or.inr ⟨t, htr, rfl, hb⟩
  | jbool bv =>
    obtain ⟨r0, hbase⟩ := memberHead_scalar_data k (jbool bv) rfl
    obtain ⟨a, b, hline, hdisj⟩ := scalar_line_shape (memberHead k (jbool bv)) '"' r0 hbase
      (by decide) (infoTrailing (cmGet cm (joinDot (path ++ [k])))) level
    refine ⟨keyCommentLines cm ae (joinDot (path ++ [k])) level, a, b, ?_, ?_⟩
    · rw [hline]
      rw [show entryTail cm ae k (jbool bv) path level inner = [] from rfl]
      simp
    · rcases hdisj with ⟨hb, _⟩ | ⟨t, htr, hb⟩
      · exact Or.inl hb
      · exact Or.inr ⟨t, htr, rfl, hb⟩
  | jnum n =>
    obtain ⟨r0, hbase⟩ := memberHead_scalar_data k (jnum n) rfl
    obtain ⟨a, b, hline, hdisj⟩ := scalar_line_shape (memberHead k (jnum n)) '"' r0 hbase
      (by decide) (infoTrailing (cmGet cm (joinDot (path ++ [k])))) level
    refine ⟨keyCommentLines cm ae (joinDot (path ++ [k])) level, a, b, ?_, ?_⟩
    · rw [hline]
      rw [show entryTail cm ae k (jnum n) path level inner = [] from rfl]
      simp
    · rcases hdisj with ⟨hb, _⟩ | ⟨t, htr, hb⟩
      · exact Or.inl hb
      · exact Or.inr ⟨t, htr, rfl, hb⟩
  | jstr sv =>
    obtain ⟨r0, hbase⟩ := memberHead_scalar_data k (jstr sv) rfl
    obtain ⟨a, b, hline, hdisj⟩ := scalar_line_shape (memberHead k (jstr sv)) '"' r0 hbase
      (by decide) (infoTrailing (cmGet cm (joinDot (path ++ [k])))) level
    refine ⟨keyCommentLines cm ae (joinDot (path ++ [k])) level, a, b, ?_, ?_⟩
    · rw [hline]
      rw [show entryTail cm ae k (jstr sv) path level inner = [] from rfl]
      simp
    · rcases hdisj with ⟨hb, _⟩ | ⟨t, htr, hb⟩
      · exact Or.inl hb
      · exact Or.inr ⟨t, htr, rfl, hb⟩

theorem c8_element_last (cm : CMap) (ae : Bool) (path : List String) (key : String)
    (level : Nat) (xs : JArr) (j i : Nat) (e : JVal) (hi : aGet xs i = some e) :
    ∃ pre a b post,
      writeItems cm ae path key level xs j =
        pre ++ [(⟨a ++ ',' :: b⟩ : String)] ++ post ∧
      (b = [] ∨ ∃ t, infoTrailing (cmGet cm
          (joinDot (path ++ [key, toString (j + i)]))) = some t ∧
        b = rtrimL (' ' :: t.data)) := by
  obtain ⟨pre3, post3, h3⟩ :=
    writeItems_chunk cm ae path key level (aLen xs) xs (le_refl _) j i e hi
  obtain ⟨c0, r0, hbase, hc⟩ := itemLine_data e
  obtain ⟨a, b, hline, hdisj⟩ := scalar_line_shape (jsonStringify e ++ ",") c0 r0 hbase hc
    (infoTrailing (cmGet cm (joinDot (path ++ [key, toString (j + i)])))) (level + 2)
  refine ⟨pre3 ++ itemCommentLines cm ae
      (joinDot (path ++ [key, toString (j + i)])) (level + 2), a, b, post3, ?_, ?_⟩
  · rw [h3, hline]
    simp [List.append_assoc]
  · rcases hdisj with ⟨hb, _⟩ | ⟨t, htr, hb⟩
    · exact Or.inl hb
    · exact Or.inr ⟨t, htr, hb⟩

/-- C8 (amended): each emitted object member and array element is
terminated by a comma: the final line of a member's chunk (the value line
of a scalar, the closing line of a container) and every element's line
contain the terminating comma, followed on the same line only by the
recorded trailing annotation when one is present (which can only happen for
scalar members and for elements); in particular, with no trailing
annotation the line ends with the comma character — including for the last
member or element of its container. -/
theorem c8_trailing_comma :
    (∀ (cm : CMap) (ae : Bool) (k : String) (v : JVal) (path : List String)
        (level : Nat) (inner : List String),
      ∃ front a b,
        entryLinesWith cm ae k v path level inner =
          front ++ [(⟨a ++ ',' :: b⟩ : String)] ∧
        (b = [] ∨ ∃ t, infoTrailing (cmGet cm (joinDot (path ++ [k]))) = some t ∧
          isScalar v = true ∧ b = rtrimL (' ' :: t.data))) ∧
    (∀ (cm : CMap) (ae : Bool) (path : List String) (key : String) (level : Nat)
        (xs : JArr) (j i : Nat) (e : JVal),
      aGet xs i = some e →
      ∃ pre a b post,
        writeItems cm ae path key level xs j =
          pre ++ [(⟨a ++ ',' :: b⟩ : String)] ++ post ∧
        (b = [] ∨ ∃ t, infoTrailing (cmGet cm
            (joinDot (path ++ [key, toString (j + i)]))) = some t ∧
          b = rtrimL (' ' :: t.data))) :=
  ⟨c8_member_last, c8_element_last⟩

/-- Witness for C8 (amended) at concrete inputs. -/
theorem c8_trailing_comma_witness :
    (∃ front a b,
      entryLinesWith ([] : CMap) true "a" (jnum 1) [] 2 [] =
        front ++ [(⟨a ++ ',' :: b⟩ : String)] ∧
      (b = [] ∨ ∃ t, infoTrailing (cmGet ([] : CMap) "a") = some t ∧
        isScalar (jnum 1) = true ∧ b = rtrimL (' ' :: t.data))) ∧
    (∃ pre a b post,
      writeItems ([] : CMap) true [] "xs" 2 (acons (jstr "glob") anil) 0 =
        pre ++ [(⟨a ++ ',' :: b⟩ : String)] ++ post ∧
      (b = [] ∨ ∃ t, infoTrailing (cmGet ([] : CMap) "xs.0") = some t ∧
        b = rtrimL (' ' :: t.data))) :=
  ⟨c8_trailing_comma.1 ([] : CMap) true "a" (jnum 1) [] 2 [],
   c8_trailing_comma.2 ([] : CMap) true [] "xs" 2 (acons (jstr "glob") anil) 0 0
     (jstr "glob") rfl⟩

end Json5Sync
